import Mathlib

/-!
Verification development for the gauze crate (probabilistic set-membership
filters). The definitions below are a shallow embedding of the Rust sources:

* src/bloom.rs  - BloomFilter: bit array, Kirsch-Mitzenmacher double hashing,
  construction via an iterative parameter search over f64 values;
* src/cuckoo.rs - CuckooFilter: bucket array of fixed-width fingerprints;
* src/utils.rs  - float_to_usize: checked f64 to usize conversion.

Modelling conventions:
* u64 / usize values are natural numbers; wrapping u64 arithmetic is explicit
  arithmetic modulo 2 ^ 64.
* The BitVec bit array is a List Bool; bitvec's set / get are List.set and
  List.getD.
* f64 values are real numbers. Arithmetic on reals is exact, so the embedding
  does not reproduce IEEE-754 rounding; every statement proved about the
  real-valued functions is a statement about this real model. The one f64
  rounding fact that the sources rely on, the value of the constant
  (usize::MAX as f64), is modelled explicitly (see USIZE_MAX_AS_F64).
* The two XxHash64 evaluations of an item (one with the fixed default seed,
  one with the lazily generated process-wide random seed) are abstracted as an
  arbitrary pair of u64 values: the second hash depends on a random seed, so
  an item's index set is determined exactly by this pair.
-/

namespace Gauze

/-- 2 ^ 64, the modulus of wrapping u64 arithmetic. -/
def U64_SIZE : ℕ := 2 ^ 64

/-- usize::MAX on a 64-bit platform. -/
def usizeMAX : ℕ := 2 ^ 64 - 1

/-- u64::wrapping_add. -/
def wrapping_add64 (a b : ℕ) : ℕ := (a + b) % U64_SIZE

/-- u64::wrapping_mul. -/
def wrapping_mul64 (a b : ℕ) : ℕ := a * b % U64_SIZE

/-- src/lib.rs FilterError. The payload strings produced with to_string /
stringify! are not modelled; ConversionError keeps its numeric payload
(the offending f64 value). -/
inductive FilterError where
  | InvalidParameter
  | ConversionError (value : ℝ)

/-- src/bloom.rs BloomFilter: a BitVec bit array plus cached structural
statistics. The false_positive_rate field is the f64 statistic cached at
construction. -/
structure BloomFilter where
  array : List Bool
  false_positive_rate : ℝ
  hash_fn_count : ℕ
  bit_size : ℕ

/-- src/bloom.rs BloomFilter::get_bit_indexes, with the item abstracted by its
two XxHash64 values hash_1 (default seed) and hash_2 (process-wide random
seed). Source: for i in 0..hash_fn_count, push
(hash_1.wrapping_add((i as u64).wrapping_mul(hash_2)) % bit_size as u64).
`i as u64` is i % 2 ^ 64; `% bit_size as u64` is Nat.mod (the source would
panic on bit_size = 0, where Nat.mod is the identity; BloomFilter::new always
produces a positive bit_size). -/
def BloomFilter.get_bit_indexes (f : BloomFilter) (hash_1 hash_2 : ℕ) : List ℕ :=
  (List.range f.hash_fn_count).map fun i =>
    wrapping_add64 hash_1 (wrapping_mul64 (i % U64_SIZE) hash_2) % f.bit_size

/-- The loop body of BloomFilter::insert: for idx in idxes, array.set(idx, true).
List.set, like BitVec::set on an in-range index, leaves the length unchanged;
an out-of-range index would panic in the source and is a no-op here (C10 shows
indices stay in range). -/
def setBits (arr : List Bool) (idxs : List ℕ) : List Bool :=
  idxs.foldl (fun a i => a.set i true) arr

/-- src/bloom.rs impl Filter for BloomFilter: insert. -/
def BloomFilter.insert (f : BloomFilter) (hash_1 hash_2 : ℕ) : BloomFilter :=
  { f with array := setBits f.array (f.get_bit_indexes hash_1 hash_2) }

/-- src/bloom.rs impl Filter for BloomFilter: might_contain. The source reads
array.get(idx).expect(..) and returns false on the first false bit; the fold
over List.all is the same boolean. The expect panic branch (index out of
range) is modelled by the getD default, which C10 shows is never taken for a
filter whose array has bit_size bits. -/
def BloomFilter.might_contain (f : BloomFilter) (hash_1 hash_2 : ℕ) : Bool :=
  (f.get_bit_indexes hash_1 hash_2).all fun idx => f.array.getD idx false

/-- src/bloom.rs impl Filter for BloomFilter: reset.
Source: self.array = bitvec![usize, Lsb0; 0; self.bit_size]. -/
def BloomFilter.reset (f : BloomFilter) : BloomFilter :=
  { f with array := List.replicate f.bit_size false }

/-- A sequence of inserts, each item abstracted by its pair of hash values. -/
def insertAll (f : BloomFilter) (items : List (ℕ × ℕ)) : BloomFilter :=
  items.foldl (fun acc it => acc.insert it.1 it.2) f

/-- src/bloom.rs approximate_elems: -1.0 * (m * (1.0 - x / m).log(e)) / k. -/
noncomputable def approximate_elems (bits hash_fns_count num_truthy_bits : ℕ) : ℝ :=
  -1 * ((bits : ℝ) * Real.log (1 - (num_truthy_bits : ℝ) / (bits : ℝ))) / (hash_fns_count : ℝ)

/-- array.iter_ones().count(): the number of true bits. -/
def countOnes (arr : List Bool) : ℕ := arr.count true

/-- src/bloom.rs BloomFilter::count_approx:
approximate_elems(bit_size, hash_fn_count, num_truthy_bits).round() as usize.
f64::round rounds half away from zero; for the nonnegative values produced
here this agrees with Lean's round (half up), and `as usize` clamps negative
values to 0, modelled by Int.toNat. -/
noncomputable def BloomFilter.count_approx (f : BloomFilter) : ℕ :=
  (round (approximate_elems f.bit_size f.hash_fn_count (countOnes f.array))).toNat

/-! ### Cuckoo filter data layout (src/cuckoo.rs) -/

/-- src/cuckoo.rs BUCKET_SIZE. -/
def BUCKET_SIZE : ℕ := 4

/-- src/cuckoo.rs Fingerprint: a u8 digest (value 0 is the empty sentinel). -/
structure Fingerprint where
  value : ℕ
deriving DecidableEq

/-- src/cuckoo.rs EMPTY_FINGERPRINT. -/
def EMPTY_FINGERPRINT : Fingerprint := ⟨0⟩

/-- src/cuckoo.rs Bucket: [Fingerprint; BUCKET_SIZE], modelled as a list. -/
structure Bucket where
  slots : List Fingerprint
deriving DecidableEq

/-- src/cuckoo.rs Bucket::new: all BUCKET_SIZE slots empty. -/
def Bucket.new : Bucket := ⟨List.replicate BUCKET_SIZE EMPTY_FINGERPRINT⟩

/-- src/cuckoo.rs CuckooFilter: Box<[Bucket]>. -/
structure CuckooFilter where
  filter : List Bucket
deriving DecidableEq

/-- usize::next_power_of_two on a 64-bit platform: the smallest power of two
greater than or equal to the argument (1 for 0), i.e. 2 ^ Nat.clog 2 n, for
arguments up to 2 ^ 63. For larger arguments that value overflows usize:
debug builds panic and release builds wrap the result to 0 (the only input
range on which the method can return 0). Modelled with the release
(wrapping) semantics. -/
def next_power_of_two (n : ℕ) : ℕ := if n ≤ 2 ^ 63 then 2 ^ Nat.clog 2 n else 0

/-- src/cuckoo.rs CuckooFilter::new:
buckets = max(1, capacity.next_power_of_two() / BUCKET_SIZE);
filter = repeat(Bucket::new()).take(buckets).collect(). -/
def CuckooFilter.new (capacity : ℕ) : CuckooFilter :=
  ⟨List.replicate (max 1 (next_power_of_two capacity / BUCKET_SIZE)) Bucket.new⟩

/-! ### The parameter-optimization search (src/bloom.rs), over the real model
of f64. The f64 literal 1.01 is modelled by the exact real 1.01 (they differ
by less than 2 ^ -52 relatively); 0.5 and 4.0 are exact in f64. -/

/-- src/bloom.rs OPTIMIZATION_STEP. -/
noncomputable def OPTIMIZATION_STEP : ℝ := 1.01

/-- src/bloom.rs false_positive_rate:
(1.0 - (-hash_fns_count * (capacity + 0.5) / (bits - 1.0)).exp()).powf(hash_fns_count).
powf on the nonnegative bases arising here is Real.rpow. -/
noncomputable def false_positive_rate (bits capacity hash_fns_count : ℝ) : ℝ :=
  (1 - Real.exp (-hash_fns_count * (capacity + 0.5) / (bits - 1))) ^ hash_fns_count

/-- src/bloom.rs optimal_hash_fn_count: (bits / capacity) * 2_f64.ln(). -/
noncomputable def optimal_hash_fn_count (bits capacity : ℝ) : ℝ :=
  bits / capacity * Real.log 2

/-- src/bloom.rs optimize_values, the recursive search. The source recursion
carries no fuel; it stops either when the computed error rate is acceptable or
when num_bits has overflowed to f64::MAX / infinity. Real numbers have no
infinity, so the overflow guard is unreachable in this model and the model
instead carries explicit fuel, returning none when the fuel runs out; C7 shows
the needed fuel always exists. f64::ceil is Int.ceil. -/
noncomputable def optimize_values (fuel : ℕ)
    (capacity num_bits hash_fns_count target_error_rate : ℝ) : Option (ℝ × ℝ × ℝ) :=
  match fuel with
  | 0 => none
  | fuel + 1 =>
    let error_rate := false_positive_rate num_bits capacity hash_fns_count
    if error_rate < target_error_rate then
      some (num_bits, (⌈hash_fns_count⌉ : ℝ), error_rate)
    else
      optimize_values fuel capacity (⌈num_bits * OPTIMIZATION_STEP⌉ : ℝ)
        (optimal_hash_fn_count (⌈num_bits * OPTIMIZATION_STEP⌉ : ℝ) capacity)
        target_error_rate

/-- The f64 constant usize::MAX as f64. 2 ^ 64 - 1 is not representable in
f64; the cast rounds to nearest, giving exactly 2 ^ 64. -/
noncomputable def USIZE_MAX_AS_F64 : ℝ := 2 ^ 64

/-- src/utils.rs float_to_usize. A real number is always finite, so the
is_finite test of the source is true here and the non-finite ConversionError
branch is unreachable in the model. f64::floor is exact (Int.floor), the
comparisons are exact, and `floored as usize` is Rust's saturating
float-to-int cast, modelled by clamping into [0, usizeMAX]. The source's
&'static str argument label is not modelled. -/
noncomputable def float_to_usize (number : ℝ) : Except FilterError ℕ :=
  if 0 ≤ ⌊number⌋ ∧ (⌊number⌋ : ℝ) ≤ USIZE_MAX_AS_F64 then
    Except.ok (min ⌊number⌋.toNat usizeMAX)
  else
    Except.error (FilterError.ConversionError (⌊number⌋ : ℝ))

/-- src/bloom.rs optimize: runs optimize_values from
(capacity as f64 * 4.0, 2.0) and converts the two results with
float_to_usize. none only when the model fuel runs out. -/
noncomputable def optimize (fuel capacity : ℕ) (target_err_rate : ℝ) :
    Option (Except FilterError ℕ × Except FilterError ℕ × ℝ) :=
  (optimize_values fuel (capacity : ℝ) ((capacity : ℝ) * 4) 2 target_err_rate).map
    fun r => (float_to_usize r.1, float_to_usize r.2.1, r.2.2)

/-- src/bloom.rs BloomFilter::new. Validation is as in the source; then the
optimize results are unpacked with ?, num_bits first, and the filter is built
with a bit_count-long all-false bit array (the source's local names filter /
array and error_rate / false_positive_rate are identified). none only when
the model fuel runs out. -/
noncomputable def BloomFilter.new (fuel capacity : ℕ) (target_err_rate : ℝ) :
    Option (Except FilterError BloomFilter) :=
  if capacity < 1 then some (Except.error FilterError.InvalidParameter)
  else if target_err_rate ≤ 0 ∨ 1 ≤ target_err_rate then
    some (Except.error FilterError.InvalidParameter)
  else
    (optimize fuel capacity target_err_rate).map fun r =>
      match r.1 with
      | Except.error e => Except.error e
      | Except.ok bit_count =>
        match r.2.1 with
        | Except.error e => Except.error e
        | Except.ok hash_fn_count =>
          Except.ok ⟨List.replicate bit_count false, r.2.2, hash_fn_count, bit_count⟩

/-! ### The trace of the search: the sequence of states optimize_values
visits, used to characterize its result. -/

/-- The num_bits argument at the j-th call of optimize_values: capacity * 4,
then the ceil of 1.01 times the previous value. -/
noncomputable def bitsSeq (capacity : ℝ) : ℕ → ℝ
  | 0 => capacity * 4
  | j + 1 => (⌈bitsSeq capacity j * OPTIMIZATION_STEP⌉ : ℝ)

/-- The hash_fns_count argument at the j-th call of optimize_values: 2 at the
start, then optimal_hash_fn_count of the current num_bits. -/
noncomputable def kSeq (capacity : ℝ) : ℕ → ℝ
  | 0 => 2
  | j + 1 => optimal_hash_fn_count (bitsSeq capacity (j + 1)) capacity

/-- The j-th state of the search passes the acceptance test. -/
def accept (capacity target : ℝ) (j : ℕ) : Prop :=
  false_positive_rate (bitsSeq capacity j) capacity (kSeq capacity j) < target

/-! ## Helper lemmas: the bit array -/

theorem getD_set_self : ∀ (l : List Bool) (i : ℕ), i < l.length →
    (l.set i true).getD i false = true := by
  intro l
  induction l with
  | nil => intro i h; simp at h
  | cons a tl ih =>
    intro i h
    cases i with
    | zero => simp
    | succ i => simpa using ih i (by simpa using h)

theorem getD_set_mono : ∀ (l : List Bool) (i j : ℕ), l.getD j false = true →
    (l.set i true).getD j false = true := by
  intro l
  induction l with
  | nil => intro i j h; simp at h
  | cons a tl ih =>
    intro i j h
    cases i with
    | zero =>
      cases j with
      | zero => simp
      | succ j => simpa using h
    | succ i =>
      cases j with
      | zero => simpa using h
      | succ j => simpa using ih i j (by simpa using h)

theorem setBits_cons (arr : List Bool) (i : ℕ) (tl : List ℕ) :
    setBits arr (i :: tl) = setBits (arr.set i true) tl := rfl

theorem setBits_length : ∀ (idxs : List ℕ) (arr : List Bool),
    (setBits arr idxs).length = arr.length := by
  intro idxs
  induction idxs with
  | nil => intro arr; rfl
  | cons i tl ih => intro arr; rw [setBits_cons, ih, List.length_set]

theorem getD_setBits_mono : ∀ (idxs : List ℕ) (arr : List Bool) (j : ℕ),
    arr.getD j false = true → (setBits arr idxs).getD j false = true := by
  intro idxs
  induction idxs with
  | nil => intro arr j h; exact h
  | cons i tl ih =>
    intro arr j h
    rw [setBits_cons]
    exact ih _ j (getD_set_mono arr i j h)

theorem getD_setBits_mem : ∀ (idxs : List ℕ) (arr : List Bool) (i : ℕ),
    i ∈ idxs → i < arr.length → (setBits arr idxs).getD i false = true := by
  intro idxs
  induction idxs with
  | nil => intro arr i h; simp at h
  | cons j tl ih =>
    intro arr i hmem hlt
    rw [setBits_cons]
    rcases List.mem_cons.mp hmem with rfl | hmem
    · exact getD_setBits_mono tl _ i (getD_set_self arr i hlt)
    · exact ih _ i hmem (by simpa [List.length_set] using hlt)

theorem getD_replicate_false : ∀ (n i : ℕ),
    (List.replicate n false).getD i false = false := by
  intro n
  induction n with
  | zero => intro i; simp
  | succ n ih =>
    intro i
    cases i with
    | zero => simp [List.replicate_succ]
    | succ i => simp [List.replicate_succ, ih i]

/-! ## Helper lemmas: filter operations -/

theorem insert_bit_size (f : BloomFilter) (h1 h2 : ℕ) :
    (f.insert h1 h2).bit_size = f.bit_size := rfl

theorem insert_hash_fn_count (f : BloomFilter) (h1 h2 : ℕ) :
    (f.insert h1 h2).hash_fn_count = f.hash_fn_count := rfl

theorem insert_array_length (f : BloomFilter) (h1 h2 : ℕ) :
    (f.insert h1 h2).array.length = f.array.length :=
  setBits_length _ _

theorem insertAll_bit_size : ∀ (items : List (ℕ × ℕ)) (f : BloomFilter),
    (insertAll f items).bit_size = f.bit_size := by
  intro items
  induction items with
  | nil => intro f; rfl
  | cons it tl ih => intro f; exact ih (f.insert it.1 it.2)

theorem insertAll_hash_fn_count : ∀ (items : List (ℕ × ℕ)) (f : BloomFilter),
    (insertAll f items).hash_fn_count = f.hash_fn_count := by
  intro items
  induction items with
  | nil => intro f; rfl
  | cons it tl ih => intro f; exact ih (f.insert it.1 it.2)

theorem insertAll_getD_mono : ∀ (items : List (ℕ × ℕ)) (f : BloomFilter) (idx : ℕ),
    f.array.getD idx false = true → (insertAll f items).array.getD idx false = true := by
  intro items
  induction items with
  | nil => intro f idx h; exact h
  | cons it tl ih =>
    intro f idx h
    exact ih (f.insert it.1 it.2) idx (getD_setBits_mono _ _ idx h)

theorem get_bit_indexes_congr {f g : BloomFilter} (h1 h2 : ℕ)
    (hk : g.hash_fn_count = f.hash_fn_count) (hb : g.bit_size = f.bit_size) :
    g.get_bit_indexes h1 h2 = f.get_bit_indexes h1 h2 := by
  unfold BloomFilter.get_bit_indexes
  rw [hk, hb]

theorem mem_get_bit_indexes_lt {f : BloomFilter} {h1 h2 idx : ℕ}
    (hpos : 0 < f.bit_size) (h : idx ∈ f.get_bit_indexes h1 h2) : idx < f.bit_size := by
  unfold BloomFilter.get_bit_indexes at h
  obtain ⟨i, _, rfl⟩ := List.mem_map.mp h
  exact Nat.mod_lt _ hpos

theorem countOnes_replicate_false (n : ℕ) : countOnes (List.replicate n false) = 0 := by
  unfold countOnes
  induction n with
  | zero => simp
  | succ n ih => simp [List.replicate_succ, List.count_cons, ih]

theorem approximate_elems_zero (m k : ℕ) : approximate_elems m k 0 = 0 := by
  unfold approximate_elems
  simp

/-! ## Claim C10 -/

/-- C10: for a Bloom filter with positive bit_size (as produced by
BloomFilter::new), every index computed by get_bit_indexes is strictly below
bit_size, hence below the array length whenever the array has bit_size bits:
the bit lookup of might_contain never reaches the expect panic branch and
insert never writes out of bounds. -/
theorem get_bit_indexes_in_bounds (f : BloomFilter) (h1 h2 : ℕ) (hpos : 0 < f.bit_size) :
    (∀ idx ∈ f.get_bit_indexes h1 h2, idx < f.bit_size) ∧
    (f.array.length = f.bit_size →
      ∀ idx ∈ f.get_bit_indexes h1 h2, idx < f.array.length) := by
  refine ⟨fun idx h => mem_get_bit_indexes_lt hpos h, fun hlen idx h => ?_⟩
  rw [hlen]
  exact mem_get_bit_indexes_lt hpos h

theorem get_bit_indexes_in_bounds_witness :
    0 < (BloomFilter.mk (List.replicate 3 false) 0 2 3).bit_size ∧
    ∀ idx ∈ (BloomFilter.mk (List.replicate 3 false) 0 2 3).get_bit_indexes 5 7,
      idx < (BloomFilter.mk (List.replicate 3 false) 0 2 3).bit_size :=
  ⟨by decide, (get_bit_indexes_in_bounds _ 5 7 (by decide)).1⟩

/-! ## Claim C1 -/

/-- C1: no false negatives. After inserting an item (abstracted by its hash
pair) into a filter whose array has bit_size bits, might_contain for that
item returns true after any further sequence of inserts. -/
theorem bloom_no_false_negatives (f : BloomFilter) (h1 h2 : ℕ) (others : List (ℕ × ℕ))
    (hlen : f.array.length = f.bit_size) (hpos : 0 < f.bit_size) :
    (insertAll (f.insert h1 h2) others).might_contain h1 h2 = true := by
  have hfk : (insertAll (f.insert h1 h2) others).hash_fn_count = f.hash_fn_count := by
    rw [insertAll_hash_fn_count, insert_hash_fn_count]
  have hfb : (insertAll (f.insert h1 h2) others).bit_size = f.bit_size := by
    rw [insertAll_bit_size, insert_bit_size]
  unfold BloomFilter.might_contain
  rw [get_bit_indexes_congr h1 h2 hfk hfb]
  apply List.all_eq_true.mpr
  intro idx hmem
  have hlt : idx < f.bit_size := mem_get_bit_indexes_lt hpos hmem
  have hg : (f.insert h1 h2).array.getD idx false = true := by
    unfold BloomFilter.insert
    exact getD_setBits_mem _ _ idx hmem (by rw [hlen]; exact hlt)
  simpa using insertAll_getD_mono others (f.insert h1 h2) idx hg

theorem bloom_no_false_negatives_witness :
    (BloomFilter.mk (List.replicate 3 false) 0 2 3).array.length
        = (BloomFilter.mk (List.replicate 3 false) 0 2 3).bit_size ∧
    0 < (BloomFilter.mk (List.replicate 3 false) 0 2 3).bit_size ∧
    (insertAll ((BloomFilter.mk (List.replicate 3 false) 0 2 3).insert 5 7)
        [(1, 2), (9, 9)]).might_contain 5 7 = true :=
  ⟨by decide, by decide,
    bloom_no_false_negatives (BloomFilter.mk (List.replicate 3 false) 0 2 3) 5 7
      [(1, 2), (9, 9)] (by decide) (by decide)⟩

/-! ## Claim C5 -/

/-- C5: reset reinitializes the bit array to all-false, after which
count_approx returns 0 and might_contain returns false for every item (its
indexed bits are all cleared), while bit_size, hash_fn_count and
false_positive_rate are unchanged. -/
theorem reset_spec (f : BloomFilter) (h1 h2 : ℕ) (hk : 0 < f.hash_fn_count) :
    (f.reset).array = List.replicate f.bit_size false ∧
    (f.reset).count_approx = 0 ∧
    (f.reset).might_contain h1 h2 = false ∧
    (f.reset).bit_size = f.bit_size ∧
    (f.reset).hash_fn_count = f.hash_fn_count ∧
    (f.reset).false_positive_rate = f.false_positive_rate := by
  refine ⟨rfl, ?_, ?_, rfl, rfl, rfl⟩
  · unfold BloomFilter.count_approx
    have hc : countOnes (f.reset).array = 0 := countOnes_replicate_false f.bit_size
    rw [hc, approximate_elems_zero]
    simp
  · have hmem : wrapping_add64 h1 (wrapping_mul64 (0 % U64_SIZE) h2) % (f.reset).bit_size
        ∈ (f.reset).get_bit_indexes h1 h2 := by
      unfold BloomFilter.get_bit_indexes
      exact List.mem_map_of_mem _ (List.mem_range.mpr hk)
    have hbit : (f.reset).array.getD
        (wrapping_add64 h1 (wrapping_mul64 (0 % U64_SIZE) h2) % (f.reset).bit_size) false
          = false := getD_replicate_false _ _
    unfold BloomFilter.might_contain
    cases hall : ((f.reset).get_bit_indexes h1 h2).all
        (fun idx => (f.reset).array.getD idx false) with
    | false => rfl
    | true =>
      have := List.all_eq_true.mp hall _ hmem
      rw [hbit] at this
      exact absurd this (by simp)

theorem reset_spec_witness :
    0 < (BloomFilter.mk (List.replicate 3 true) 0 2 3).hash_fn_count ∧
    ((BloomFilter.mk (List.replicate 3 true) 0 2 3).reset).count_approx = 0 ∧
    ((BloomFilter.mk (List.replicate 3 true) 0 2 3).reset).might_contain 9 4 = false :=
  ⟨by decide,
    (reset_spec (BloomFilter.mk (List.replicate 3 true) 0 2 3) 9 4 (by decide)).2.1,
    (reset_spec (BloomFilter.mk (List.replicate 3 true) 0 2 3) 9 4 (by decide)).2.2.1⟩

/-! ## Claim C8 -/

/-- C8, counterexample to the claim as stated: the linear combination
h1 + i * h2 is computed in wrapping u64 arithmetic, so for the item with
hash pair (2 ^ 64 - 1, 1), at i = 1 and bit_size = 3, the index produced is
((2 ^ 64 - 1 + 1) mod 2 ^ 64) mod 3 = 0, not (h1 + i * h2) mod bit_size = 1. -/
theorem get_bit_indexes_wrapping_cx :
    ¬ (((BloomFilter.mk (List.replicate 3 false) 0 2 3).get_bit_indexes (U64_SIZE - 1) 1).getD 1 0
        = ((U64_SIZE - 1) + 1 * 1)
            % (BloomFilter.mk (List.replicate 3 false) 0 2 3).bit_size) := by
  decide

/-- C8, amended: the i-th bit index equals ((h1 + i * h2) mod 2 ^ 64) mod
bit_size, the Kirsch-Mitzenmacher combination computed in wrapping 64-bit
arithmetic, and exactly hash_fn_count indices are produced. -/
theorem get_bit_indexes_formula (f : BloomFilter) (h1 h2 : ℕ)
    (hk : f.hash_fn_count ≤ U64_SIZE) :
    (f.get_bit_indexes h1 h2).length = f.hash_fn_count ∧
    ∀ i, i < f.hash_fn_count →
      (f.get_bit_indexes h1 h2).getD i 0 = ((h1 + i * h2) % U64_SIZE) % f.bit_size := by
  constructor
  · simp [BloomFilter.get_bit_indexes]
  · intro i hi
    have hlen : i < (f.get_bit_indexes h1 h2).length := by
      simpa [BloomFilter.get_bit_indexes] using hi
    rw [List.getD_eq_getElem _ _ hlen]
    unfold BloomFilter.get_bit_indexes
    simp only [List.getElem_map, List.getElem_range]
    unfold wrapping_add64 wrapping_mul64
    rw [Nat.mod_eq_of_lt (lt_of_lt_of_le hi hk)]
    congr 1
    rw [Nat.add_mod h1 (i * h2 % U64_SIZE), Nat.mod_mod_of_dvd _ (dvd_refl U64_SIZE),
      ← Nat.add_mod]

theorem get_bit_indexes_formula_witness :
    (BloomFilter.mk (List.replicate 3 false) 0 2 3).hash_fn_count ≤ U64_SIZE ∧
    ∀ i, i < (BloomFilter.mk (List.replicate 3 false) 0 2 3).hash_fn_count →
      ((BloomFilter.mk (List.replicate 3 false) 0 2 3).get_bit_indexes 5 7).getD i 0
        = ((5 + i * 7) % U64_SIZE) % (BloomFilter.mk (List.replicate 3 false) 0 2 3).bit_size :=
  ⟨by decide, (get_bit_indexes_formula (BloomFilter.mk (List.replicate 3 false) 0 2 3) 5 7
    (by decide)).2⟩

/-! ## Claim C9 -/

/-- C9, counterexample to the claim as stated: at capacity = 2 ^ 63 + 1 the
smallest power of two greater than or equal to capacity is
2 ^ Nat.clog 2 (2 ^ 63 + 1) = 2 ^ 64, which does not fit in usize:
usize::next_power_of_two wraps to 0 in release builds (and panics in debug
builds), so CuckooFilter::new builds max(1, 0 / 4) = 1 bucket, not the
max(1, next_power_of_two(capacity) / BUCKET_SIZE) = 2 ^ 62 buckets the claim
asserts for every capacity. -/
theorem cuckoo_new_overflow_cx :
    (CuckooFilter.new (2 ^ 63 + 1)).filter.length = 1 ∧
    Nat.clog 2 (2 ^ 63 + 1) = 64 ∧
    (CuckooFilter.new (2 ^ 63 + 1)).filter.length
      ≠ max 1 (2 ^ Nat.clog 2 (2 ^ 63 + 1) / BUCKET_SIZE) := by
  have hnpot : next_power_of_two (2 ^ 63 + 1) = 0 := by
    unfold next_power_of_two
    rw [if_neg (by norm_num)]
  have hlen : (CuckooFilter.new (2 ^ 63 + 1)).filter.length = 1 := by
    show (List.replicate (max 1 (next_power_of_two (2 ^ 63 + 1) / BUCKET_SIZE))
      Bucket.new).length = 1
    rw [hnpot]
    rfl
  have hclog : Nat.clog 2 (2 ^ 63 + 1) = 64 := by
    have h1 : Nat.clog 2 (2 ^ 63 + 1) ≤ 64 :=
      (Nat.le_pow_iff_clog_le (by norm_num)).mp (by norm_num)
    have h2 : 63 < Nat.clog 2 (2 ^ 63 + 1) :=
      (Nat.pow_lt_iff_lt_clog (by norm_num)).mp (by norm_num)
    omega
  refine ⟨hlen, hclog, ?_⟩
  rw [hlen, hclog]
  unfold BUCKET_SIZE
  norm_num

/-- C9, amended: for every capacity up to 2 ^ 63 (the range on which
usize::next_power_of_two does not overflow on a 64-bit platform),
CuckooFilter::new(capacity) succeeds (its Rust signature returns Self, never
an error, including for capacity 0) and builds exactly
max(1, p / BUCKET_SIZE) buckets, where p = 2 ^ Nat.clog 2 capacity is the
smallest power of two greater than or equal to capacity, every bucket with
all BUCKET_SIZE slots equal to the empty (zero) fingerprint. For larger
capacity, release builds wrap the overflowed power of two to 0 and build a
single bucket, and debug builds panic. -/
theorem cuckoo_new_spec (capacity : ℕ) (hcap : capacity ≤ 2 ^ 63) :
    (CuckooFilter.new capacity).filter.length
        = max 1 (2 ^ Nat.clog 2 capacity / BUCKET_SIZE) ∧
    ∀ b ∈ (CuckooFilter.new capacity).filter,
      b.slots = List.replicate BUCKET_SIZE EMPTY_FINGERPRINT := by
  constructor
  · have hnpot : next_power_of_two capacity = 2 ^ Nat.clog 2 capacity := by
      unfold next_power_of_two
      rw [if_pos hcap]
    simp [CuckooFilter.new, hnpot]
  · intro b hb
    have hb' : b = Bucket.new := List.eq_of_mem_replicate hb
    rw [hb']
    rfl

theorem cuckoo_new_spec_witness :
    (5 ≤ 2 ^ 63 ∧
      (CuckooFilter.new 5).filter.length = max 1 (2 ^ Nat.clog 2 5 / BUCKET_SIZE)) ∧
    (0 ≤ 2 ^ 63 ∧
      (CuckooFilter.new 0).filter.length = max 1 (2 ^ Nat.clog 2 0 / BUCKET_SIZE)) :=
  ⟨⟨by norm_num, (cuckoo_new_spec 5 (by norm_num)).1⟩,
    ⟨Nat.zero_le _, (cuckoo_new_spec 0 (Nat.zero_le _)).1⟩⟩

/-! ## Helper lemmas: unfolding the optimization search -/

theorem optimize_values_succ_accept (fuel : ℕ) (c b k t : ℝ)
    (h : false_positive_rate b c k < t) :
    optimize_values (fuel + 1) c b k t = some (b, (⌈k⌉ : ℝ), false_positive_rate b c k) := by
  simp [optimize_values, h]

theorem optimize_values_succ_reject (fuel : ℕ) (c b k t : ℝ)
    (h : ¬ false_positive_rate b c k < t) :
    optimize_values (fuel + 1) c b k t =
      optimize_values fuel c (⌈b * OPTIMIZATION_STEP⌉ : ℝ)
        (optimal_hash_fn_count (⌈b * OPTIMIZATION_STEP⌉ : ℝ) c) t := by
  simp [optimize_values, h]

/-- Running the search from the state reached after s growth steps: if the
(s + j)-th state is the first accepted one from there, the search returns
exactly that state's num_bits, the ceil of its hash_fns_count, and its error
rate. -/
theorem optimize_values_run (c t : ℝ) :
    ∀ (j fuel s : ℕ), j < fuel → accept c t (s + j) →
      (∀ i, i < j → ¬ accept c t (s + i)) →
      optimize_values fuel c (bitsSeq c s) (kSeq c s) t =
        some (bitsSeq c (s + j), (⌈kSeq c (s + j)⌉ : ℝ),
          false_positive_rate (bitsSeq c (s + j)) c (kSeq c (s + j))) := by
  intro j
  induction j with
  | zero =>
    intro fuel s hfuel hacc _
    obtain ⟨fuel, rfl⟩ : ∃ n, fuel = n + 1 := ⟨fuel - 1, by omega⟩
    have hacc' : false_positive_rate (bitsSeq c s) c (kSeq c s) < t := by
      simpa [accept] using hacc
    simpa using optimize_values_succ_accept fuel c (bitsSeq c s) (kSeq c s) t hacc'
  | succ j ih =>
    intro fuel s hfuel hacc hmin
    obtain ⟨fuel, rfl⟩ : ∃ n, fuel = n + 1 := ⟨fuel - 1, by omega⟩
    have h0 : ¬ false_positive_rate (bitsSeq c s) c (kSeq c s) < t := by
      simpa [accept] using hmin 0 (Nat.succ_pos j)
    rw [optimize_values_succ_reject fuel c (bitsSeq c s) (kSeq c s) t h0]
    have hacc' : accept c t (s + 1 + j) := by
      have he : s + 1 + j = s + (j + 1) := by omega
      rw [he]; exact hacc
    have hmin' : ∀ i, i < j → ¬ accept c t (s + 1 + i) := by
      intro i hi
      have he : s + 1 + i = s + (i + 1) := by omega
      rw [he]; exact hmin (i + 1) (by omega)
    have hres := ih fuel (s + 1) (by omega) hacc' hmin'
    have he : s + 1 + j = s + (j + 1) := by omega
    rw [he] at hres
    exact hres

/-- If some state within the fuel bound is accepted, the search from the
state after s growth steps returns a value. -/
theorem optimize_values_isSome (c t : ℝ) :
    ∀ (fuel s : ℕ), (∃ i, i < fuel ∧ accept c t (s + i)) →
      (optimize_values fuel c (bitsSeq c s) (kSeq c s) t).isSome = true := by
  intro fuel
  induction fuel with
  | zero =>
    intro s h
    obtain ⟨i, hi, _⟩ := h
    exact absurd hi (Nat.not_lt_zero i)
  | succ fuel ih =>
    intro s h
    obtain ⟨i, hi, hacc⟩ := h
    by_cases h0 : false_positive_rate (bitsSeq c s) c (kSeq c s) < t
    · rw [optimize_values_succ_accept fuel c (bitsSeq c s) (kSeq c s) t h0]
      rfl
    · rw [optimize_values_succ_reject fuel c (bitsSeq c s) (kSeq c s) t h0]
      cases i with
      | zero => exact absurd (by simpa [accept] using hacc) h0
      | succ i =>
        have := ih (s + 1) ⟨i, by omega, by
          have he : s + 1 + i = s + (i + 1) := by omega
          rw [he]; exact hacc⟩
        exact this

/-! ## Claim C3 -/

/-- C3, counterexample to the claim as stated: for capacity = 100 and
target_err_rate = 0.001, the initial state (bits = 400, k = 2) is rejected
(its false positive rate is at least 0.001), the next bits value is 404, but
the next k value used by the code, optimal_hash_fn_count 404 100
= (404 / 100) * ln 2 = 2.8003..., is not round((404 / 100) * ln 2) = 3 (nor
is any rounding applied): the claimed update k = round((bits / capacity) * ln 2)
with minimum 1 does not describe the code. -/
theorem optimize_k_update_not_rounded_cx :
    ¬ accept 100 (1 / 1000) 0 ∧
    bitsSeq 100 1 = 404 ∧
    kSeq 100 1 ≠ ((max 1 (round ((404 : ℝ) / 100 * Real.log 2)) : ℤ) : ℝ) := by
  have hL1 : (0.6931471803 : ℝ) < Real.log 2 := Real.log_two_gt_d9
  have hL2 : Real.log 2 < 0.6931471808 := Real.log_two_lt_d9
  have hb : bitsSeq 100 1 = 404 := by
    show (⌈(100 : ℝ) * 4 * OPTIMIZATION_STEP⌉ : ℝ) = 404
    have h1 : (100 : ℝ) * 4 * OPTIMIZATION_STEP = ((404 : ℤ) : ℝ) := by
      unfold OPTIMIZATION_STEP; norm_num
    rw [h1, Int.ceil_intCast]
    norm_num
  refine ⟨?_, hb, ?_⟩
  · -- the initial state is rejected: fpr(400, 100, 2) >= 1/1000
    unfold accept
    rw [not_lt]
    show (1 / 1000 : ℝ) ≤ false_positive_rate ((100 : ℝ) * 4) 100 2
    unfold false_positive_rate
    have harg : -(2 : ℝ) * (100 + 0.5) / ((100 : ℝ) * 4 - 1) = -(201 / 399) := by norm_num
    rw [harg]
    have hexp : Real.exp (-(201 / 399 : ℝ)) ≤ 399 / 600 := by
      have h1 : (600 / 399 : ℝ) ≤ Real.exp (201 / 399) := by
        have := Real.add_one_le_exp (201 / 399 : ℝ)
        linarith
      have h2 : Real.exp (-(201 / 399 : ℝ)) = (Real.exp (201 / 399))⁻¹ := Real.exp_neg _
      rw [h2]
      calc (Real.exp (201 / 399))⁻¹ ≤ ((600 : ℝ) / 399)⁻¹ := by
            apply inv_anti₀ (by norm_num) h1
        _ = 399 / 600 := by norm_num
    have hbase : (201 / 600 : ℝ) ≤ 1 - Real.exp (-(201 / 399)) := by linarith
    calc (1 / 1000 : ℝ) ≤ (201 / 600 : ℝ) ^ (2 : ℕ) := by norm_num
      _ = (201 / 600 : ℝ) ^ ((2 : ℕ) : ℝ) := (Real.rpow_natCast _ 2).symm
      _ ≤ (1 - Real.exp (-(201 / 399))) ^ ((2 : ℕ) : ℝ) := by
          apply Real.rpow_le_rpow (by norm_num) hbase (by norm_num)
      _ = (1 - Real.exp (-(201 / 399))) ^ (2 : ℝ) := by norm_num
  · -- the code's next k is (404/100) * ln 2, which no integer equals
    have hk : kSeq 100 1 = (404 : ℝ) / 100 * Real.log 2 := by
      show optimal_hash_fn_count (bitsSeq 100 1) 100 = (404 : ℝ) / 100 * Real.log 2
      rw [hb]
      unfold optimal_hash_fn_count
      norm_num
    have hround : round ((404 : ℝ) / 100 * Real.log 2) = 3 := by
      rw [round_eq]
      apply Int.floor_eq_iff.mpr
      constructor
      · push_cast; nlinarith
      · push_cast; nlinarith
    rw [hk, hround]
    intro heq
    norm_num at heq
    nlinarith

/-- C3, amended: for any capacity and target, the search starts from
bits = capacity * 4, k = 2, computes the analytic rate
fpr(m, n, k) = (1 - exp(-k (n + 0.5) / (m - 1)))^k, accepts as soon as
fpr < target, and otherwise moves to bits = ceil(bits * 1.01) and
k = (bits / capacity) * ln 2, unrounded and with no minimum clamp; the
returned num_bits is the first accepted bits value and the returned
hash-function count is the ceiling of the first accepted (real-valued) k,
together with the error rate computed at that accepted state. -/
theorem optimize_values_first_accepted (c t : ℝ) (j fuel : ℕ)
    (hacc : accept c t j) (hmin : ∀ i, i < j → ¬ accept c t i) (hfuel : j < fuel) :
    optimize_values fuel c (c * 4) 2 t =
      some (bitsSeq c j, (⌈kSeq c j⌉ : ℝ),
        false_positive_rate (bitsSeq c j) c (kSeq c j)) := by
  have := optimize_values_run c t j fuel 0 hfuel (by simpa using hacc)
    (fun i hi => by simpa using hmin i hi)
  simpa [bitsSeq, kSeq] using this

theorem optimize_values_first_accepted_witness :
    accept 100 (1 / 2) 0 ∧
    optimize_values 1 100 (100 * 4) 2 (1 / 2) =
      some (bitsSeq 100 0, (⌈kSeq 100 0⌉ : ℝ),
        false_positive_rate (bitsSeq 100 0) 100 (kSeq 100 0)) := by
  have hacc : accept 100 (1 / 2) 0 := by
    unfold accept
    show false_positive_rate ((100 : ℝ) * 4) 100 2 < 1 / 2
    unfold false_positive_rate
    have harg : -(2 : ℝ) * (100 + 0.5) / ((100 : ℝ) * 4 - 1) = -(201 / 399) := by norm_num
    rw [harg]
    have hexp_ge : (198 / 399 : ℝ) ≤ Real.exp (-(201 / 399)) := by
      have := Real.add_one_le_exp (-(201 / 399) : ℝ)
      linarith
    have hexp_le : Real.exp (-(201 / 399 : ℝ)) ≤ 1 := by
      calc Real.exp (-(201 / 399 : ℝ)) ≤ Real.exp 0 :=
            Real.exp_le_exp.mpr (by norm_num)
        _ = 1 := Real.exp_zero
    have hbase0 : (0 : ℝ) ≤ 1 - Real.exp (-(201 / 399)) := by linarith
    have hbase1 : 1 - Real.exp (-(201 / 399 : ℝ)) ≤ 201 / 399 := by linarith
    calc (1 - Real.exp (-(201 / 399))) ^ (2 : ℝ)
        = (1 - Real.exp (-(201 / 399))) ^ ((2 : ℕ) : ℝ) := by norm_num
      _ ≤ (201 / 399 : ℝ) ^ ((2 : ℕ) : ℝ) := by
          apply Real.rpow_le_rpow hbase0 hbase1 (by norm_num)
      _ = (201 / 399 : ℝ) ^ (2 : ℕ) := Real.rpow_natCast _ 2
      _ < 1 / 2 := by norm_num
  exact ⟨hacc, optimize_values_first_accepted 100 (1 / 2) 0 1 hacc
    (fun i hi => absurd hi (Nat.not_lt_zero i)) Nat.one_pos⟩

/-! ## Claim C7 -/

/-- After at least one growth step the bits value is an integer that has
grown by at least 1 per step: bitsSeq capacity j >= 4 * capacity + j. -/
theorem bitsSeq_int_ge (capacity : ℕ) (hc : 1 ≤ capacity) :
    ∀ j, 1 ≤ j → ∃ m : ℤ,
      bitsSeq (capacity : ℝ) j = (m : ℝ) ∧ 4 * (capacity : ℤ) + (j : ℤ) ≤ m := by
  intro j hj
  induction j with
  | zero => exact absurd hj (by omega)
  | succ j ih =>
    by_cases hj0 : j = 0
    · subst hj0
      refine ⟨⌈(capacity : ℝ) * 4 * OPTIMIZATION_STEP⌉, rfl, ?_⟩
      have hcr : (1 : ℝ) ≤ (capacity : ℝ) := by exact_mod_cast hc
      have h1 : ((4 * (capacity : ℤ) : ℤ) : ℝ) < (capacity : ℝ) * 4 * OPTIMIZATION_STEP := by
        unfold OPTIMIZATION_STEP
        push_cast
        nlinarith
      have h2 := Int.lt_ceil.mpr h1
      omega
    · obtain ⟨m, hm, hge⟩ := ih (by omega)
      refine ⟨⌈(m : ℝ) * OPTIMIZATION_STEP⌉, ?_, ?_⟩
      · show (⌈bitsSeq (capacity : ℝ) j * OPTIMIZATION_STEP⌉ : ℝ) = _
        rw [hm]
      · have hmpos : (0 : ℤ) < m := by omega
        have h1 : ((m : ℤ) : ℝ) < (m : ℝ) * OPTIMIZATION_STEP := by
          have hmr : (0 : ℝ) < (m : ℝ) := by exact_mod_cast hmpos
          unfold OPTIMIZATION_STEP
          nlinarith
        have h2 := Int.lt_ceil.mpr h1
        omega

/-- The search always reaches an accepted state: the bits value grows without
bound, so the per-state hash-function count (bits / capacity) * ln 2 grows
without bound while the base 1 - exp(-k (n + 0.5) / (bits - 1)) stays at most
3/4, driving the analytic false positive rate below any positive target. -/
theorem accept_eventually (capacity : ℕ) (t : ℝ) (hc : 1 ≤ capacity) (ht0 : 0 < t) :
    ∃ j, accept (capacity : ℝ) t j := by
  obtain ⟨N, hN⟩ := exists_pow_lt_of_lt_one ht0 (by norm_num : (3 / 4 : ℝ) < 1)
  obtain ⟨j0, hj0⟩ := exists_nat_ge ((N : ℝ) * (capacity : ℝ) / Real.log 2)
  have hn1 : (1 : ℝ) ≤ (capacity : ℝ) := by exact_mod_cast hc
  have hnpos : (0 : ℝ) < (capacity : ℝ) := by linarith
  have hL : (0 : ℝ) < Real.log 2 := Real.log_pos (by norm_num)
  refine ⟨max j0 1, ?_⟩
  have hj1 : 1 ≤ max j0 1 := le_max_right _ _
  obtain ⟨m, hm, hge⟩ := bitsSeq_int_ge capacity hc (max j0 1) hj1
  have hbge : 4 * (capacity : ℝ) + ((max j0 1 : ℕ) : ℝ) ≤ bitsSeq (capacity : ℝ) (max j0 1) := by
    rw [hm]
    exact_mod_cast hge
  have hjr : (1 : ℝ) ≤ ((max j0 1 : ℕ) : ℝ) := by exact_mod_cast hj1
  have hb5 : (5 : ℝ) ≤ bitsSeq (capacity : ℝ) (max j0 1) := by linarith
  have hkj : kSeq (capacity : ℝ) (max j0 1) =
      bitsSeq (capacity : ℝ) (max j0 1) / (capacity : ℝ) * Real.log 2 := by
    obtain ⟨j', hj'⟩ : ∃ j', max j0 1 = j' + 1 := ⟨max j0 1 - 1, by omega⟩
    rw [hj']
    rfl
  set b : ℝ := bitsSeq (capacity : ℝ) (max j0 1) with hbdef
  have hkN : (N : ℝ) ≤ b / (capacity : ℝ) * Real.log 2 := by
    have hjb : ((max j0 1 : ℕ) : ℝ) ≤ b := by nlinarith
    have hj0r : ((j0 : ℕ) : ℝ) ≤ ((max j0 1 : ℕ) : ℝ) := by
      exact_mod_cast le_max_left j0 1
    have h1 : (N : ℝ) * (capacity : ℝ) / Real.log 2 ≤ b := by linarith
    have h2 : (N : ℝ) * (capacity : ℝ) ≤ b * Real.log 2 := by
      calc (N : ℝ) * (capacity : ℝ)
          = ((N : ℝ) * (capacity : ℝ) / Real.log 2) * Real.log 2 := by field_simp
        _ ≤ b * Real.log 2 := mul_le_mul_of_nonneg_right h1 hL.le
    rw [div_mul_eq_mul_div, le_div_iff₀ hnpos]
    linarith
  have hk0 : (0 : ℝ) ≤ b / (capacity : ℝ) * Real.log 2 :=
    le_trans (Nat.cast_nonneg N) hkN
  have hb1 : (1 : ℝ) < b := by linarith
  set K : ℝ := b / (capacity : ℝ) * Real.log 2 with hKdef
  set E : ℝ := K * ((capacity : ℝ) + 0.5) / (b - 1) with hEdef
  have hE0 : 0 ≤ E := by
    apply div_nonneg (mul_nonneg hk0 (by linarith)) (by linarith)
  have hEle : E ≤ 2 * Real.log 2 := by
    have heq : E = Real.log 2 * (b * ((capacity : ℝ) + 0.5)) / ((capacity : ℝ) * (b - 1)) := by
      rw [hEdef, hKdef]
      field_simp
      ring
    rw [heq]
    have hden : (0 : ℝ) < (capacity : ℝ) * (b - 1) := by
      apply mul_pos hnpos
      linarith
    rw [div_le_iff₀ hden]
    have hx : (0 : ℝ) ≤ ((capacity : ℝ) - 1) * (b - 2) :=
      mul_nonneg (by linarith) (by linarith)
    have hXY : b * ((capacity : ℝ) + 0.5) ≤ 2 * ((capacity : ℝ) * (b - 1)) := by
      nlinarith [hx]
    calc Real.log 2 * (b * ((capacity : ℝ) + 0.5))
        ≤ Real.log 2 * (2 * ((capacity : ℝ) * (b - 1))) :=
          mul_le_mul_of_nonneg_left hXY hL.le
      _ = 2 * Real.log 2 * ((capacity : ℝ) * (b - 1)) := by ring
  have hexp2 : Real.exp (-(2 * Real.log 2)) = 1 / 4 := by
    have h4 : Real.log ((1 : ℝ) / 4) = -(2 * Real.log 2) := by
      rw [show ((1 : ℝ) / 4) = ((2 : ℝ) ^ (2 : ℕ))⁻¹ by norm_num, Real.log_inv,
        Real.log_pow]
      push_cast
      ring
    rw [← h4, Real.exp_log (by norm_num : (0 : ℝ) < 1 / 4)]
  have hbase_le : 1 - Real.exp (-E) ≤ 3 / 4 := by
    have h1 : Real.exp (-(2 * Real.log 2)) ≤ Real.exp (-E) :=
      Real.exp_le_exp.mpr (by linarith)
    rw [hexp2] at h1
    linarith
  have hbase_ge : 0 ≤ 1 - Real.exp (-E) := by
    have h1 : Real.exp (-E) ≤ 1 := by
      calc Real.exp (-E) ≤ Real.exp 0 := Real.exp_le_exp.mpr (by linarith)
        _ = 1 := Real.exp_zero
    linarith
  show false_positive_rate b (capacity : ℝ) (kSeq (capacity : ℝ) (max j0 1)) < t
  rw [hkj]
  unfold false_positive_rate
  have harg : -(K) * ((capacity : ℝ) + 0.5) / (b - 1) = -E := by
    rw [hEdef]
    ring
  rw [show -(b / (capacity : ℝ) * Real.log 2) * ((capacity : ℝ) + 0.5) / (b - 1) = -E from harg]
  calc (1 - Real.exp (-E)) ^ K
      ≤ (3 / 4 : ℝ) ^ K := Real.rpow_le_rpow hbase_ge hbase_le hk0
    _ ≤ (3 / 4 : ℝ) ^ ((N : ℕ) : ℝ) :=
        Real.rpow_le_rpow_of_exponent_ge (by norm_num) (by norm_num) hkN
    _ = (3 / 4 : ℝ) ^ (N : ℕ) := Real.rpow_natCast _ N
    _ < t := hN

/-- C7: for every capacity >= 1 and target in (0, 1), the parameter search
terminates after finitely many growth steps: some fuel makes the embedded
search return a result. (In the real-valued model the acceptance branch is
always reached; in f64 the same finite growth instead reaches the
non-finite-bits guard when acceptance never occurs, and construction then
fails in float_to_usize.) -/
theorem optimize_values_terminates (capacity : ℕ) (t : ℝ)
    (hc : 1 ≤ capacity) (ht0 : 0 < t) (_ht1 : t < 1) :
    ∃ fuel, (optimize_values fuel (capacity : ℝ) ((capacity : ℝ) * 4) 2 t).isSome = true := by
  obtain ⟨j, hj⟩ := accept_eventually capacity t hc ht0
  refine ⟨j + 1, ?_⟩
  have := optimize_values_isSome (capacity : ℝ) t (j + 1) 0 ⟨j, by omega, by simpa using hj⟩
  simpa [bitsSeq, kSeq] using this

theorem optimize_values_terminates_witness :
    1 ≤ 1 ∧ (0 : ℝ) < 1 / 2 ∧ (1 / 2 : ℝ) < 1 ∧
    ∃ fuel, (optimize_values fuel ((1 : ℕ) : ℝ) (((1 : ℕ) : ℝ) * 4) 2 (1 / 2)).isSome = true :=
  ⟨le_refl 1, by norm_num, by norm_num,
    optimize_values_terminates 1 (1 / 2) (le_refl 1) (by norm_num) (by norm_num)⟩

/-! ## Helper lemmas: float_to_usize -/

/-- On an in-range integer input, float_to_usize returns exactly that
integer. -/
theorem float_to_usize_int (m : ℤ) (h0 : 0 ≤ m) (h1 : (m : ℝ) ≤ USIZE_MAX_AS_F64)
    (h2 : m.toNat ≤ usizeMAX) : float_to_usize (m : ℝ) = Except.ok m.toNat := by
  unfold float_to_usize
  rw [Int.floor_intCast]
  rw [if_pos ⟨h0, h1⟩, min_eq_left h2]

/-- float_to_usize never produces an InvalidParameter error. -/
theorem float_to_usize_not_invalid (x : ℝ) :
    float_to_usize x ≠ Except.error FilterError.InvalidParameter := by
  unfold float_to_usize
  split
  · intro h
    exact Except.noConfusion h
  · intro h
    have := Except.error.inj h
    exact FilterError.noConfusion this

/-! ## Claim C6 -/

/-- C6: at the f64 input 2 ^ 64 (the rounded value of usize::MAX as f64,
exactly representable) the finiteness and range checks all pass, so
float_to_usize returns Ok with the saturated value usize::MAX = 2 ^ 64 - 1
even though the input exceeds usize::MAX: the conversion is silently lossy
at this input instead of failing with a ConversionError as the claim
requires. -/
theorem float_to_usize_saturates_above_usize_max :
    float_to_usize ((2 : ℝ) ^ 64) = Except.ok usizeMAX ∧ usizeMAX < 2 ^ 64 := by
  constructor
  · have h : ((2 : ℝ) ^ 64) = (((2 ^ 64 : ℤ)) : ℝ) := by push_cast; ring
    rw [h]
    unfold float_to_usize
    rw [Int.floor_intCast]
    rw [if_pos ⟨by positivity, by unfold USIZE_MAX_AS_F64; push_cast; norm_num⟩]
    have hmin : min ((2 ^ 64 : ℤ)).toNat usizeMAX = usizeMAX := by decide
    rw [hmin]
  · unfold usizeMAX
    omega

/-! ## Claim C4 -/

/-- C4: BloomFilter::new returns InvalidParameter exactly when capacity < 1
or the target error rate lies outside the open interval (0, 1) (any other
failure is a ConversionError and a fuel-exhausted model run is none, never
InvalidParameter); in particular new(0, 0.5), new(1, 0.0), new(1, 1.0) and
new(1, -1.0) all fail with InvalidParameter, and new(1, 0.5) succeeds. -/
theorem new_invalid_parameter_iff :
    (∀ (fuel capacity : ℕ) (rate : ℝ),
      BloomFilter.new fuel capacity rate = some (Except.error FilterError.InvalidParameter) ↔
        (capacity < 1 ∨ rate ≤ 0 ∨ 1 ≤ rate)) ∧
    BloomFilter.new 1 0 (1 / 2) = some (Except.error FilterError.InvalidParameter) ∧
    BloomFilter.new 1 1 0 = some (Except.error FilterError.InvalidParameter) ∧
    BloomFilter.new 1 1 1 = some (Except.error FilterError.InvalidParameter) ∧
    BloomFilter.new 1 1 (-1) = some (Except.error FilterError.InvalidParameter) ∧
    ∃ flt, BloomFilter.new 1 1 (1 / 2) = some (Except.ok flt) := by
  have hiff : ∀ (fuel capacity : ℕ) (rate : ℝ),
      BloomFilter.new fuel capacity rate = some (Except.error FilterError.InvalidParameter) ↔
        (capacity < 1 ∨ rate ≤ 0 ∨ 1 ≤ rate) := by
    intro fuel capacity rate
    constructor
    · intro h
      by_contra hvalid
      push_neg at hvalid
      obtain ⟨hcap, hr0, hr1⟩ := hvalid
      unfold BloomFilter.new at h
      rw [if_neg (by omega)] at h
      rw [if_neg (by push_neg; exact ⟨hr0, hr1⟩)] at h
      cases hopt : optimize fuel capacity rate with
      | none =>
        rw [hopt] at h
        simp at h
      | some r =>
        rw [hopt] at h
        unfold optimize at hopt
        cases hvals : optimize_values fuel (capacity : ℝ) ((capacity : ℝ) * 4) 2 rate with
        | none => rw [hvals] at hopt; simp at hopt
        | some r0 =>
          rw [hvals] at hopt
          simp only [Option.map_some'] at hopt
          have hr : r = (float_to_usize r0.1, float_to_usize r0.2.1, r0.2.2) :=
            (Option.some.inj hopt).symm
          subst hr
          simp only [Option.map_some'] at h
          cases hf1 : float_to_usize r0.1 with
          | error e =>
            rw [hf1] at h
            simp at h
            exact float_to_usize_not_invalid r0.1 (by rw [hf1, h])
          | ok bc =>
            rw [hf1] at h
            cases hf2 : float_to_usize r0.2.1 with
            | error e =>
              rw [hf2] at h
              simp at h
              exact float_to_usize_not_invalid r0.2.1 (by rw [hf2, h])
            | ok kk =>
              rw [hf2] at h
              simp at h
    · intro h
      by_cases hcap : capacity < 1
      · unfold BloomFilter.new
        rw [if_pos hcap]
      · unfold BloomFilter.new
        rw [if_neg hcap]
        have hrate : rate ≤ 0 ∨ 1 ≤ rate := by
          rcases h with h | h
          · exact absurd h hcap
          · exact h
        rw [if_pos hrate]
  refine ⟨hiff, ?_, ?_, ?_, ?_, ?_⟩
  · exact (hiff 1 0 (1 / 2)).mpr (Or.inl (by norm_num))
  · exact (hiff 1 1 0).mpr (Or.inr (Or.inl (by norm_num)))
  · exact (hiff 1 1 1).mpr (Or.inr (Or.inr (by norm_num)))
  · exact (hiff 1 1 (-1)).mpr (Or.inr (Or.inl (by norm_num)))
  · -- new(1, 0.5) succeeds
    have hfpr : false_positive_rate (((1 : ℕ) : ℝ) * 4) ((1 : ℕ) : ℝ) 2 < 1 / 2 := by
      unfold false_positive_rate
      have harg : -(2 : ℝ) * (((1 : ℕ) : ℝ) + 0.5) / (((1 : ℕ) : ℝ) * 4 - 1) = -1 := by
        push_cast
        norm_num
      rw [harg]
      have hexp_lb : (1 / 2.7182818286 : ℝ) < Real.exp (-1) := by
        rw [Real.exp_neg]
        rw [show ((1 : ℝ) / 2.7182818286) = (2.7182818286 : ℝ)⁻¹ by norm_num]
        apply inv_strictAnti₀ (Real.exp_pos 1) Real.exp_one_lt_d9
      have hexp_le : Real.exp (-1 : ℝ) ≤ 1 := by
        calc Real.exp (-1 : ℝ) ≤ Real.exp 0 := Real.exp_le_exp.mpr (by norm_num)
          _ = 1 := Real.exp_zero
      have hbase0 : (0 : ℝ) ≤ 1 - Real.exp (-1) := by linarith
      have hbase1 : 1 - Real.exp (-1 : ℝ) ≤ 1 - 1 / 2.7182818286 := by linarith
      calc (1 - Real.exp (-1)) ^ (2 : ℝ)
          = (1 - Real.exp (-1)) ^ ((2 : ℕ) : ℝ) := by norm_num
        _ ≤ (1 - 1 / 2.7182818286 : ℝ) ^ ((2 : ℕ) : ℝ) := by
            apply Real.rpow_le_rpow hbase0 hbase1 (by norm_num)
        _ = (1 - 1 / 2.7182818286 : ℝ) ^ (2 : ℕ) := Real.rpow_natCast _ 2
        _ < 1 / 2 := by norm_num
    have hvals : optimize_values 1 ((1 : ℕ) : ℝ) (((1 : ℕ) : ℝ) * 4) 2 (1 / 2) =
        some (((1 : ℕ) : ℝ) * 4, (⌈(2 : ℝ)⌉ : ℝ),
          false_positive_rate (((1 : ℕ) : ℝ) * 4) ((1 : ℕ) : ℝ) 2) :=
      optimize_values_succ_accept 0 _ _ _ _ hfpr
    have hceil2 : (⌈(2 : ℝ)⌉ : ℤ) = 2 := by
      rw [show (2 : ℝ) = ((2 : ℤ) : ℝ) by norm_num, Int.ceil_intCast]
    have hf4 : float_to_usize (((1 : ℕ) : ℝ) * 4) = Except.ok 4 := by
      rw [show (((1 : ℕ) : ℝ) * 4) = ((4 : ℤ) : ℝ) by push_cast; ring]
      rw [float_to_usize_int 4 (by norm_num)
        (by unfold USIZE_MAX_AS_F64; norm_num)
        (by unfold usizeMAX; norm_num)]
      rfl
    have hf2 : float_to_usize ((⌈(2 : ℝ)⌉ : ℝ)) = Except.ok 2 := by
      rw [show ((⌈(2 : ℝ)⌉ : ℤ) : ℝ) = ((2 : ℤ) : ℝ) by rw [hceil2]]
      rw [float_to_usize_int 2 (by norm_num)
        (by unfold USIZE_MAX_AS_F64; norm_num)
        (by unfold usizeMAX; norm_num)]
      rfl
    refine ⟨⟨List.replicate 4 false,
      false_positive_rate (((1 : ℕ) : ℝ) * 4) ((1 : ℕ) : ℝ) 2, 2, 4⟩, ?_⟩
    unfold BloomFilter.new
    rw [if_neg (by omega), if_neg (by push_neg; constructor <;> norm_num)]
    unfold optimize
    rw [hvals]
    simp only [Option.map_some']
    rw [hf4, hf2]

theorem new_invalid_parameter_iff_witness :
    BloomFilter.new 1 5 2 = some (Except.error FilterError.InvalidParameter) :=
  (new_invalid_parameter_iff.1 1 5 2).mpr (Or.inr (Or.inr (by norm_num)))

end Gauze
